import Mathlib

/-!
Verification of the dnsgate domain-set reconciliation engine
(src/dnsgate/dnsgate.py).

A domain token (a normalized dot-separated byte string) is represented by its
list of labels, of type `List String`: the byte form `b"a.example.com"` is the
list `["a", "example", "com"]`.  Splitting on `'.'` is the identity on this
representation and joining with `'.'` is implicit; since labels of a normalized
token are nonempty and dot-free, the join is injective, so equality and set
membership of tokens coincide with equality and membership of label lists.
The byte form contains a `'.'` exactly when the token has at least two labels.
ASCII byte comparison coincides with `String` comparison on these labels.

Python sets are represented by lists: the list order models the (unspecified)
iteration order of the set, removal of an element is modeled by filtering it
out (a set holds no duplicates), and adding an element appends it when absent.
The external collaborators are parameters: `e` is the IDNA re-encoder used by
`validate_domain_list` (returning `none` when encoding raises), and `psl` is
the registrable-root extractor `extract_psl_domain`.
-/

/-- A domain token, represented as its list of labels. -/
abbrev Domain := List String

/-- Output mode of the engine (src line 352, `--mode` choice). -/
inductive Mode
  | dnsmasq
  | hosts
deriving DecidableEq

/-- The fatal error conditions of the engine: the `--block-at-psl`/hosts-mode
configuration conflict (src lines 518-520) and the empty final result
(src lines 560-562). -/
inductive DnsErr
  | configConflict
  | emptyResult
deriving DecidableEq

/-- The immediate parent of a domain: split on `'.'`, pop the leading label,
re-join (src lines 311-313). -/
def parent_domain (d : Domain) : Domain := d.drop 1

/-- One iteration of the pruning loop (src lines 309-317): if the processed
domain's byte form contains a dot (at least two labels) and its immediate
parent is in the live set, remove the domain from the live set. -/
def pruneStep (live : List Domain) (domain : Domain) : List Domain :=
  if 2 ≤ domain.length ∧ parent_domain domain ∈ live then
    live.filter (fun x => decide (x ≠ domain))
  else live

/-- Redundant-rule pruning (src lines 306-318): iterate over a snapshot copy of
the set, removing from the live set every domain whose immediate parent is
(currently) present. -/
def prune_redundant_rules (domains_combined : List Domain) : List Domain :=
  domains_combined.foldl pruneStep domains_combined

/-- Lexicographic comparison of two labels by character code, the order in
which Python compares the (ASCII) byte strings of two labels. -/
def charListLt : List Char → List Char → Bool
  | [], [] => false
  | [], _ :: _ => true
  | _ :: _, [] => false
  | a :: as, b :: bs =>
    if a.toNat < b.toNat then true
    else if b.toNat < a.toNat then false
    else charListLt as bs

/-- Comparison of two labels, matching Python byte-string comparison. -/
def labelLt (a b : String) : Bool := charListLt a.data b.data

/-- Boolean lexicographic comparison of label lists, matching Python's
comparison of lists of byte strings (used by `reversed_domains.sort()`,
src line 109). -/
def revLt : List String → List String → Bool
  | [], [] => false
  | [], _ :: _ => true
  | _ :: _, [] => false
  | a :: as, b :: bs =>
    if labelLt a b then true else if labelLt b a then false else revLt as bs

/-- The reflexive closure of `revLt`, the order by which `group_by_tld`
sorts the reversed label lists. -/
def RevLe (a b : List String) : Prop := revLt a b = true ∨ a = b

instance : DecidableRel RevLe := fun a b => by unfold RevLe; infer_instance

/-- Canonical ordering stage (src lines 99-113, `group_by_tld`): reverse each
domain's label list, sort the reversed lists lexicographically, reverse each
entry back.  Python's `list.sort` is a stable sort by `<`; since the sort keys
are the whole (reversed) elements and the input holds distinct set elements,
any sort w.r.t. the same total order produces the identical list, so a
structural insertion sort is a faithful model. -/
def group_by_tld (domains : List Domain) : List Domain :=
  (List.insertionSort RevLe (domains.map List.reverse)).map List.reverse

/-- One iteration of the validation loop (src lines 160-166): if the hostname
re-encodes, add the encoded form to the result set; otherwise skip it. -/
def validateStep (e : Domain → Option Domain) (valid_domains : List Domain)
    (hostname : Domain) : List Domain :=
  match e hostname with
  | some h => if h ∈ valid_domains then valid_domains else valid_domains ++ [h]
  | none => valid_domains

/-- Domain validation (src lines 156-167, `validate_domain_list`): build a new
set containing the IDNA re-encoding of every entry that encodes successfully;
entries whose encoding raises are skipped (never propagated as an error). -/
def validate_domain_list (e : Domain → Option Domain) (domains : List Domain) :
    List Domain :=
  domains.foldl (validateStep e) []

/-- Root-stripping stage (src lines 120-133, `strip_to_psl`): build the set of
registrable roots of all domains. -/
def strip_to_psl (psl : Domain → Domain) (domains : List Domain) : List Domain :=
  domains.foldl
    (fun stripped line =>
      if psl line ∈ stripped then stripped else stripped ++ [psl line])
    []

/-- Whitelist root removal (src lines 497-500): for every whitelisted domain
whose registrable root is in the working blacklist, remove that root. -/
def whitelist_root_removal (psl : Domain → Domain) (wl working : List Domain) :
    List Domain :=
  wl.foldl
    (fun acc w =>
      if psl w ∈ acc then acc.filter (fun x => decide (x ≠ psl w)) else acc)
    working

/-- One iteration of the re-admission loop (src lines 505-513): the original
domain is added back when it is not whitelisted, not in the current working
blacklist, and its registrable root is not in the current working blacklist. -/
def readmitStep (psl : Domain → Domain) (wl : List Domain) (acc : List Domain)
    (orig : Domain) : List Domain :=
  if orig ∉ wl ∧ orig ∉ acc ∧ psl orig ∉ acc then acc ++ [orig] else acc

/-- Re-admission pass (src lines 505-513): for every original (pre-stripping)
blacklisted domain, if it is not whitelisted, not in the current working
blacklist, and its registrable root is not in the current working blacklist,
add it back.  The membership tests are against the live, progressively
updated working blacklist. -/
def readmit_subdomains (psl : Domain → Domain) (wl working origs : List Domain) :
    List Domain :=
  origs.foldl (readmitStep psl wl) working

/-- The `--block-at-psl` branch of the engine (src lines 482-516): strip the
remote blacklist to registrable roots, subtract the whitelist, remove roots of
whitelisted domains, then run the re-admission pass over the original
(validated, pre-stripping) remote snapshot. -/
def reconcile_stripped (psl : Domain → Domain) (wlv remotev : List Domain) :
    List Domain :=
  readmit_subdomains psl wlv
    (whitelist_root_removal psl wlv
      ((strip_to_psl psl remotev).filter (fun d => decide (d ∉ wlv))))
    remotev

/-- The working blacklist just before pruning (src lines 439-542): validate the
whitelist and the remote set, optionally run the `--block-at-psl` branch,
subtract exact whitelist matches (src line 523), re-union the local blacklist
(src lines 528-535), and re-validate the combined set (src line 540). -/
def dnsgate_preprune (e : Domain → Option Domain) (psl : Domain → Domain)
    (strip : Bool) (remote localBl wl : List Domain) : List Domain :=
  let wlv := validate_domain_list e wl
  let remotev := validate_domain_list e remote
  let combined := if strip then reconcile_stripped psl wlv remotev else remotev
  let afterWl := combined.filter (fun d => decide (d ∉ wlv))
  let withLocal := afterWl ++ localBl.filter (fun d => decide (d ∉ afterWl))
  validate_domain_list e withLocal

/-- The final ordered output list of a run: the working blacklist before
pruning (`dnsgate_preprune`), pruned (src line 544) and canonically ordered
(src line 548).  The `--block-at-psl` branch runs exactly when the flag is set
and the mode is not hosts (src line 482). -/
def dnsgate_out (e : Domain → Option Domain) (psl : Domain → Domain)
    (block_at_psl : Bool) (mode : Mode) (remote localBl wl : List Domain) :
    List Domain :=
  group_by_tld (prune_redundant_rules
    (dnsgate_preprune e psl (block_at_psl && decide (mode ≠ Mode.hosts))
      remote localBl wl))

/-- The domain-set reconciliation engine (src lines 372-589, `dnsgate`):
returns either a fatal error, or the pair of (overlap warnings, final ordered
output).  The configuration conflict (src lines 518-520) and the empty final
result (src lines 560-562) are fatal: nothing is written, no output value is
produced.  The overlap warning loop (src lines 564-568) reports every
validated whitelist domain whose registrable root is in the final output
list. -/
def dnsgate (e : Domain → Option Domain) (psl : Domain → Domain)
    (block_at_psl : Bool) (mode : Mode) (remote localBl wl : List Domain) :
    Except DnsErr (List Domain × List Domain) :=
  if block_at_psl = true ∧ mode = Mode.hosts then
    Except.error DnsErr.configConflict
  else if dnsgate_out e psl block_at_psl mode remote localBl wl = [] then
    Except.error DnsErr.emptyResult
  else
    Except.ok
      ((validate_domain_list e wl).filter
        (fun d => decide (psl d ∈ dnsgate_out e psl block_at_psl mode remote localBl wl)),
        dnsgate_out e psl block_at_psl mode remote localBl wl)

/-- A concrete registrable-root extractor used in witnesses and
counterexamples: keep the last two labels.  This agrees with the public-suffix
extraction on plain `.com`/`.net` domains, e.g. it maps
`a.b.example.com` to `example.com`. -/
def pslTake2 (d : Domain) : Domain := d.drop (d.length - 2)

/-- A concrete encoder for witnesses: every token encodes to itself
(the behavior of IDNA encoding on already-normalized ASCII tokens). -/
def encodeId : Domain → Option Domain := fun d => some d

/-- A concrete encoder with one failing token, for witnesses about malformed
entries: `bad` fails to encode, everything else encodes to itself. -/
def encodeDrop (bad : Domain) : Domain → Option Domain :=
  fun d => if d = bad then none else some d

/-- The encoder acts as a partial identity: on every token it either fails or
returns the token unchanged.  This is how IDNA re-encoding behaves on the
already-normalized ASCII tokens of the data model. -/
def IdOrNone (e : Domain → Option Domain) : Prop :=
  ∀ d, e d = none ∨ e d = some d

/-- The top-level label (TLD) of a domain: its last label. -/
def tldOf (d : Domain) : String := d.reverse.headD ""

deriving instance DecidableEq for Except

/-! ### Properties of the comparison orders -/

theorem charListLt_irrefl : ∀ l : List Char, charListLt l l = false
  | [] => rfl
  | a :: as => by
    simp [charListLt, Nat.lt_irrefl, charListLt_irrefl as]

theorem charListLt_cons {a b : Char} {as bs : List Char} :
    charListLt (a :: as) (b :: bs) = true ↔
      a.toNat < b.toNat ∨ (a.toNat = b.toNat ∧ charListLt as bs = true) := by
  simp only [charListLt]
  rcases Nat.lt_trichotomy a.toNat b.toNat with h | h | h
  · simp [h]
  · simp [h, Nat.lt_irrefl]
  · have h1 : ¬ a.toNat < b.toNat := Nat.lt_asymm h
    have h2 : a.toNat ≠ b.toNat := Nat.ne_of_gt h
    simp [h, h1, h2]

theorem charListLt_asymm : ∀ (a b : List Char),
    charListLt a b = true → charListLt b a = false
  | [], [], h => by simp [charListLt] at h
  | [], _ :: _, _ => rfl
  | _ :: _, [], h => by simp [charListLt] at h
  | a :: as, b :: bs, h => by
    rcases charListLt_cons.mp h with h1 | ⟨h1, h1r⟩
    · have c1 : ¬ b.toNat < a.toNat := Nat.lt_asymm h1
      have c2 : b.toNat ≠ a.toNat := Nat.ne_of_lt' h1
      simp only [charListLt]
      simp [c1, c2, h1]
    · simp only [charListLt]
      simp [h1, Nat.lt_irrefl, charListLt_asymm as bs h1r]

theorem charListLt_trans : ∀ (a b c : List Char),
    charListLt a b = true → charListLt b c = true → charListLt a c = true
  | [], [], _, hab, _ => by simp [charListLt] at hab
  | [], _ :: _, [], _, hbc => by simp [charListLt] at hbc
  | [], _ :: _, _ :: _, _, _ => rfl
  | _ :: _, [], _, hab, _ => by simp [charListLt] at hab
  | _ :: _, _ :: _, [], _, hbc => by simp [charListLt] at hbc
  | a :: as, b :: bs, c :: cs, hab, hbc => by
    rcases charListLt_cons.mp hab with h1 | ⟨h1, h1r⟩ <;>
      rcases charListLt_cons.mp hbc with h2 | ⟨h2, h2r⟩
    · exact charListLt_cons.mpr (Or.inl (by omega))
    · exact charListLt_cons.mpr (Or.inl (by omega))
    · exact charListLt_cons.mpr (Or.inl (by omega))
    · exact charListLt_cons.mpr
        (Or.inr ⟨by omega, charListLt_trans as bs cs h1r h2r⟩)

theorem charListLt_conn : ∀ (a b : List Char),
    charListLt a b = false → charListLt b a = false → a = b
  | [], [], _, _ => rfl
  | [], _ :: _, hab, _ => by simp [charListLt] at hab
  | _ :: _, [], _, hba => by simp [charListLt] at hba
  | a :: as, b :: bs, hab, hba => by
    rcases Nat.lt_trichotomy a.toNat b.toNat with h | h | h
    · exact absurd
        (charListLt_cons.mpr (Or.inl h) : charListLt (a :: as) (b :: bs) = true)
        (by simp [hab])
    · have hc : a = b := Char.ext (UInt32.ext h)
      subst hc
      simp only [charListLt, Nat.lt_irrefl, if_false] at hab hba
      rw [charListLt_conn as bs hab hba]
    · exact absurd
        (charListLt_cons.mpr (Or.inl h) : charListLt (b :: bs) (a :: as) = true)
        (by simp [hba])

theorem labelLt_irrefl (a : String) : labelLt a a = false :=
  charListLt_irrefl _

theorem labelLt_asymm {a b : String} (h : labelLt a b = true) :
    labelLt b a = false :=
  charListLt_asymm _ _ h

theorem labelLt_trans {a b c : String} (h1 : labelLt a b = true)
    (h2 : labelLt b c = true) : labelLt a c = true :=
  charListLt_trans _ _ _ h1 h2

theorem labelLt_conn {a b : String} (h1 : labelLt a b = false)
    (h2 : labelLt b a = false) : a = b := by
  have h := charListLt_conn a.data b.data h1 h2
  cases a
  cases b
  exact congrArg String.mk h

theorem labelLt_eq_false_of_ne_true {a b : String} (h : ¬ labelLt a b = true) :
    labelLt a b = false := by
  revert h
  cases labelLt a b <;> simp

theorem revLt_cons {a b : String} {as bs : List String} :
    revLt (a :: as) (b :: bs) = true ↔
      labelLt a b = true ∨ (a = b ∧ revLt as bs = true) := by
  simp only [revLt]
  by_cases h : labelLt a b = true
  · simp [h]
  · have h' : labelLt a b = false := labelLt_eq_false_of_ne_true h
    by_cases h2 : labelLt b a = true
    · have hne : a ≠ b := by
        intro e
        subst e
        rw [labelLt_irrefl] at h2
        cases h2
      simp [h', h2, hne]
    · have h2' : labelLt b a = false := labelLt_eq_false_of_ne_true h2
      have he : a = b := labelLt_conn h' h2'
      subst he
      simp [labelLt_irrefl]

theorem revLt_irrefl : ∀ l : List String, revLt l l = false
  | [] => rfl
  | a :: as => by
    simp [revLt, labelLt_irrefl, revLt_irrefl as]

theorem revLt_asymm : ∀ (a b : List String),
    revLt a b = true → revLt b a = false
  | [], [], h => by simp [revLt] at h
  | [], _ :: _, _ => rfl
  | _ :: _, [], h => by simp [revLt] at h
  | a :: as, b :: bs, h => by
    rcases revLt_cons.mp h with h1 | ⟨h1, h1r⟩
    · simp only [revLt]
      have c1 : labelLt b a = false := labelLt_asymm h1
      have c2 : labelLt a b = true := h1
      simp [c1, c2]
    · subst h1
      simp only [revLt, labelLt_irrefl, if_false]
      exact revLt_asymm as bs h1r

theorem revLt_trans : ∀ (a b c : List String),
    revLt a b = true → revLt b c = true → revLt a c = true
  | [], [], _, hab, _ => by simp [revLt] at hab
  | [], _ :: _, [], _, hbc => by simp [revLt] at hbc
  | [], _ :: _, _ :: _, _, _ => rfl
  | _ :: _, [], _, hab, _ => by simp [revLt] at hab
  | _ :: _, _ :: _, [], _, hbc => by simp [revLt] at hbc
  | a :: as, b :: bs, c :: cs, hab, hbc => by
    rcases revLt_cons.mp hab with h1 | ⟨h1, h1r⟩ <;>
      rcases revLt_cons.mp hbc with h2 | ⟨h2, h2r⟩
    · exact revLt_cons.mpr (Or.inl (labelLt_trans h1 h2))
    · subst h2
      exact revLt_cons.mpr (Or.inl h1)
    · subst h1
      exact revLt_cons.mpr (Or.inl h2)
    · subst h1
      exact revLt_cons.mpr (Or.inr ⟨h2, revLt_trans as bs cs h1r h2r⟩)

theorem revLt_eq_false_of_ne_true {a b : List String} (h : ¬ revLt a b = true) :
    revLt a b = false := by
  revert h
  cases revLt a b <;> simp

theorem revLt_conn : ∀ (a b : List String),
    revLt a b = false → revLt b a = false → a = b
  | [], [], _, _ => rfl
  | [], _ :: _, hab, _ => by simp [revLt] at hab
  | _ :: _, [], _, hba => by simp [revLt] at hba
  | a :: as, b :: bs, hab, hba => by
    by_cases h : labelLt a b = true
    · exact absurd (revLt_cons.mpr (Or.inl h) : revLt (a :: as) (b :: bs) = true)
        (by simp [hab])
    · by_cases h2 : labelLt b a = true
      · exact absurd (revLt_cons.mpr (Or.inl h2) : revLt (b :: bs) (a :: as) = true)
          (by simp [hba])
      · have he : a = b :=
          labelLt_conn (labelLt_eq_false_of_ne_true h) (labelLt_eq_false_of_ne_true h2)
        subst he
        simp only [revLt, labelLt_irrefl, if_false] at hab hba
        rw [revLt_conn as bs hab hba]

instance : IsTrans (List String) RevLe :=
  ⟨fun a b c hab hbc => by
    rcases hab with hab | rfl
    · rcases hbc with hbc | rfl
      · exact Or.inl (revLt_trans a b c hab hbc)
      · exact Or.inl hab
    · exact hbc⟩

instance : IsTotal (List String) RevLe :=
  ⟨fun a b => by
    by_cases h : revLt a b = true
    · exact Or.inl (Or.inl h)
    · by_cases h2 : revLt b a = true
      · exact Or.inr (Or.inl h2)
      · exact Or.inl (Or.inr
          (revLt_conn a b (revLt_eq_false_of_ne_true h) (revLt_eq_false_of_ne_true h2)))⟩

instance : IsAntisymm (List String) RevLe :=
  ⟨fun a b hab hba => by
    rcases hab with hab | rfl
    · rcases hba with hba | rfl
      · rw [revLt_asymm a b hab] at hba
        cases hba
      · rfl
    · rfl⟩

/-! ### Properties of the canonical ordering stage -/

theorem group_by_tld_map_reverse (S : List Domain) :
    (group_by_tld S).map List.reverse =
      List.insertionSort RevLe (S.map List.reverse) := by
  simp [group_by_tld, List.map_map, Function.comp_def, List.reverse_reverse]

theorem group_by_tld_sorted (S : List Domain) :
    List.Sorted RevLe ((group_by_tld S).map List.reverse) := by
  rw [group_by_tld_map_reverse]
  exact List.sorted_insertionSort RevLe _

theorem group_by_tld_perm (S : List Domain) : List.Perm (group_by_tld S) S := by
  have h := (List.perm_insertionSort RevLe (S.map List.reverse)).map List.reverse
  simpa [group_by_tld, List.map_map, Function.comp_def, List.reverse_reverse] using h

theorem group_by_tld_mem {S : List Domain} {x : Domain} :
    x ∈ group_by_tld S ↔ x ∈ S :=
  (group_by_tld_perm S).mem_iff

theorem group_by_tld_eq_of_perm {S T : List Domain} (h : List.Perm S T) :
    group_by_tld S = group_by_tld T := by
  unfold group_by_tld
  congr 1
  refine List.eq_of_perm_of_sorted ?_
    (List.sorted_insertionSort RevLe _) (List.sorted_insertionSort RevLe _)
  exact ((List.perm_insertionSort RevLe _).trans (h.map _)).trans
    (List.perm_insertionSort RevLe _).symm

theorem charListLt_nil : ∀ l : List Char, charListLt l [] = false
  | [] => rfl
  | _ :: _ => rfl

theorem labelLt_empty (s : String) : labelLt s "" = false :=
  charListLt_nil s.data

/-- The order on reversed label lists is monotone in the leading label (the
domain's TLD). -/
theorem revLe_headD {x y : List String} (h : RevLe x y) :
    labelLt (y.headD "") (x.headD "") = false := by
  rcases h with h | rfl
  · cases x with
    | nil =>
      cases y with
      | nil => exact labelLt_irrefl _
      | cons b bs => exact labelLt_empty b
    | cons a as =>
      cases y with
      | nil => simp [revLt] at h
      | cons b bs =>
        rcases revLt_cons.mp h with h1 | ⟨h1, _⟩
        · exact labelLt_asymm h1
        · subst h1
          exact labelLt_irrefl _
  · exact labelLt_irrefl _

/-! ### Properties of validation -/

theorem mem_validate_foldl (e : Domain → Option Domain) :
    ∀ (l acc : List Domain) (x : Domain),
      x ∈ l.foldl (validateStep e) acc ↔ x ∈ acc ∨ ∃ y ∈ l, e y = some x
  | [], acc, x => by simp
  | d :: t, acc, x => by
    rw [List.foldl_cons, mem_validate_foldl e t (validateStep e acc d) x]
    cases he : e d with
    | none =>
      simp only [validateStep, he]
      constructor
      · rintro (hx | ⟨y, hyt, hye⟩)
        · exact Or.inl hx
        · exact Or.inr ⟨y, List.mem_cons_of_mem d hyt, hye⟩
      · rintro (hx | ⟨y, hy, hye⟩)
        · exact Or.inl hx
        · rcases List.mem_cons.mp hy with rfl | hyt
          · rw [he] at hye
            cases hye
          · exact Or.inr ⟨y, hyt, hye⟩
    | some h =>
      simp only [validateStep, he]
      by_cases hmem : h ∈ acc
      · rw [if_pos hmem]
        constructor
        · rintro (hx | ⟨y, hyt, hye⟩)
          · exact Or.inl hx
          · exact Or.inr ⟨y, List.mem_cons_of_mem d hyt, hye⟩
        · rintro (hx | ⟨y, hy, hye⟩)
          · exact Or.inl hx
          · rcases List.mem_cons.mp hy with rfl | hyt
            · rw [he] at hye
              cases hye
              exact Or.inl hmem
            · exact Or.inr ⟨y, hyt, hye⟩
      · rw [if_neg hmem]
        constructor
        · rintro (hx | ⟨y, hyt, hye⟩)
          · rcases List.mem_append.mp hx with hx' | hx'
            · exact Or.inl hx'
            · have hxh : x = h := by simpa using hx'
              exact Or.inr ⟨d, List.mem_cons_self d t, by rw [he, hxh]⟩
          · exact Or.inr ⟨y, List.mem_cons_of_mem d hyt, hye⟩
        · rintro (hx | ⟨y, hy, hye⟩)
          · exact Or.inl (List.mem_append_left _ hx)
          · rcases List.mem_cons.mp hy with rfl | hyt
            · rw [he] at hye
              cases hye
              exact Or.inl (List.mem_append_right _ (by simp))
            · exact Or.inr ⟨y, hyt, hye⟩

theorem mem_validate {e : Domain → Option Domain} {S : List Domain} {x : Domain} :
    x ∈ validate_domain_list e S ↔ ∃ y ∈ S, e y = some x := by
  rw [validate_domain_list, mem_validate_foldl]
  simp

theorem mem_validate_idOrNone {e : Domain → Option Domain} {S : List Domain}
    {x : Domain} (he : IdOrNone e) :
    x ∈ validate_domain_list e S ↔ x ∈ S ∧ e x = some x := by
  rw [mem_validate]
  constructor
  · rintro ⟨y, hy, hye⟩
    rcases he y with h | h
    · rw [h] at hye
      cases hye
    · rw [h] at hye
      cases hye
      exact ⟨hy, h⟩
  · rintro ⟨hx, hsome⟩
    exact ⟨x, hx, hsome⟩

/-! ### Properties of pruning -/

theorem pruneStep_subset {live : List Domain} {d x : Domain}
    (h : x ∈ pruneStep live d) : x ∈ live := by
  unfold pruneStep at h
  split at h
  · exact List.mem_of_mem_filter h
  · exact h

theorem pruneStep_mem {live : List Domain} {d x : Domain}
    (hx : x ∈ live) (hne : x ≠ d) : x ∈ pruneStep live d := by
  unfold pruneStep
  split
  · exact List.mem_filter.mpr ⟨hx, by simpa using hne⟩
  · exact hx

theorem pruneFold_subset : ∀ (l acc : List Domain) (x : Domain),
    x ∈ l.foldl pruneStep acc → x ∈ acc
  | [], _, _, h => h
  | _ :: t, _, x, h => pruneStep_subset (pruneFold_subset t _ x h)

theorem pruneFold_keep : ∀ (l acc : List Domain) (x : Domain),
    x ∈ acc → ¬ (2 ≤ x.length ∧ parent_domain x ∈ acc) →
    x ∈ l.foldl pruneStep acc
  | [], _, _, hx, _ => hx
  | d :: t, acc, x, hx, hcond => by
    rw [List.foldl_cons]
    apply pruneFold_keep t _ x
    · by_cases hxd : x = d
      · subst hxd
        unfold pruneStep
        rw [if_neg hcond]
        exact hx
      · exact pruneStep_mem hx hxd
    · rintro ⟨hlen, hpar⟩
      exact hcond ⟨hlen, pruneStep_subset hpar⟩

theorem pruneFold_post : ∀ (l acc : List Domain) (d : Domain),
    d ∈ l.foldl pruneStep acc → d ∈ l → 2 ≤ d.length →
    parent_domain d ∉ l.foldl pruneStep acc
  | [], _, _, _, hdl, _ => by cases hdl
  | h :: t, acc, d, hres, hdl, hlen => by
    rw [List.foldl_cons] at hres ⊢
    rcases List.mem_cons.mp hdl with rfl | hdt
    · by_cases hc : 2 ≤ d.length ∧ parent_domain d ∈ acc
      · exfalso
        have hnot : d ∉ pruneStep acc d := by
          unfold pruneStep
          rw [if_pos hc]
          intro hmem
          have hm := List.mem_filter.mp hmem
          simp at hm
        exact hnot (pruneFold_subset t _ d hres)
      · have hpar : parent_domain d ∉ acc := fun hp => hc ⟨hlen, hp⟩
        intro hmem
        exact hpar (pruneStep_subset (pruneFold_subset t _ _ hmem))
    · exact pruneFold_post t _ d hres hdt hlen

theorem prune_subset {S : List Domain} {x : Domain}
    (h : x ∈ prune_redundant_rules S) : x ∈ S :=
  pruneFold_subset S S x h

theorem prune_keep {S : List Domain} {d : Domain} (hd : d ∈ S)
    (hcond : ¬ (2 ≤ d.length ∧ parent_domain d ∈ S)) :
    d ∈ prune_redundant_rules S :=
  pruneFold_keep S S d hd hcond

theorem prune_removed {S : List Domain} {d : Domain} (hd : d ∈ S)
    (hnot : d ∉ prune_redundant_rules S) :
    2 ≤ d.length ∧ parent_domain d ∈ S := by
  by_contra hc
  exact hnot (prune_keep hd hc)

theorem prune_post {S : List Domain} {d : Domain}
    (hd : d ∈ prune_redundant_rules S) (hlen : 2 ≤ d.length) :
    parent_domain d ∉ prune_redundant_rules S :=
  pruneFold_post S S d hd (prune_subset hd) hlen

theorem pruneFold_id : ∀ (l acc : List Domain),
    (∀ d ∈ l, ¬ (2 ≤ d.length ∧ parent_domain d ∈ acc)) →
    l.foldl pruneStep acc = acc
  | [], _, _ => rfl
  | h :: t, acc, hall => by
    rw [List.foldl_cons]
    have hstep : pruneStep acc h = acc := by
      unfold pruneStep
      rw [if_neg (hall h (List.mem_cons_self h t))]
    rw [hstep]
    exact pruneFold_id t acc (fun d hd => hall d (List.mem_cons_of_mem h hd))

/-! ### Properties of the re-admission pass -/

theorem readmitFold_mono (psl : Domain → Domain) (wl : List Domain) :
    ∀ (origs acc : List Domain) (x : Domain),
      x ∈ acc → x ∈ origs.foldl (readmitStep psl wl) acc
  | [], _, _, hx => hx
  | h :: t, acc, x, hx => by
    rw [List.foldl_cons]
    apply readmitFold_mono psl wl t _ x
    unfold readmitStep
    split
    · exact List.mem_append_left _ hx
    · exact hx

theorem readmitFold_mem (psl : Domain → Domain) (wl : List Domain) :
    ∀ (origs acc : List Domain) (x : Domain),
      x ∈ origs.foldl (readmitStep psl wl) acc →
      x ∈ acc ∨ (x ∈ origs ∧ x ∉ wl)
  | [], _, _, hx => Or.inl hx
  | h :: t, acc, x, hx => by
    rw [List.foldl_cons] at hx
    rcases readmitFold_mem psl wl t _ x hx with hx' | ⟨hxt, hxw⟩
    · unfold readmitStep at hx'
      split at hx'
      · rcases List.mem_append.mp hx' with hx'' | hx''
        · exact Or.inl hx''
        · have hxh : x = h := by simpa using hx''
          subst hxh
          rename_i hcond
          exact Or.inr ⟨List.mem_cons_self x t, hcond.1⟩
      · exact Or.inl hx'
    · exact Or.inr ⟨List.mem_cons_of_mem h hxt, hxw⟩

/-! ### Unfolding the engine -/

theorem dnsgate_ok {e : Domain → Option Domain} {psl : Domain → Domain}
    {b : Bool} {m : Mode} {remote localBl wl : List Domain}
    {p : List Domain × List Domain}
    (h : dnsgate e psl b m remote localBl wl = Except.ok p) :
    p.2 = dnsgate_out e psl b m remote localBl wl ∧
    p.1 = (validate_domain_list e wl).filter
      (fun d => decide (psl d ∈ dnsgate_out e psl b m remote localBl wl)) ∧
    p.2 ≠ [] := by
  unfold dnsgate at h
  split at h
  · cases h
  · split at h
    · cases h
    · rename_i hout
      cases h
      exact ⟨rfl, rfl, hout⟩

theorem mem_union_local {A localBl : List Domain} {d : Domain} (hd : d ∈ localBl) :
    d ∈ A ++ localBl.filter (fun x => decide (x ∉ A)) := by
  by_cases hin : d ∈ A
  · exact List.mem_append_left _ hin
  · exact List.mem_append_right _ (List.mem_filter.mpr ⟨hd, by simpa using hin⟩)

/-- Every local-blacklist domain that re-encodes to itself is in the working
blacklist just before pruning (the re-union of src lines 528-535 happens after
the whitelist subtraction of src line 523). -/
theorem preprune_mem_local {e : Domain → Option Domain} {psl : Domain → Domain}
    {strip : Bool} {remote localBl wl : List Domain} {d : Domain}
    (he : IdOrNone e) (hed : e d = some d) (hd : d ∈ localBl) :
    d ∈ dnsgate_preprune e psl strip remote localBl wl := by
  simp only [dnsgate_preprune]
  exact (mem_validate_idOrNone he).mpr ⟨mem_union_local hd, hed⟩

/-- A whitelisted domain that is not in the local blacklist is not in the
working blacklist just before pruning. -/
theorem preprune_not_mem_wl {e : Domain → Option Domain} {psl : Domain → Domain}
    {strip : Bool} {remote localBl wl : List Domain} {d : Domain}
    (he : IdOrNone e) (hwl : d ∈ wl) (hnl : d ∉ localBl) :
    d ∉ dnsgate_preprune e psl strip remote localBl wl := by
  intro hmem
  simp only [dnsgate_preprune] at hmem
  have h2 := (mem_validate_idOrNone he).mp hmem
  rcases he d with hne | hid
  · rw [hne] at h2
    cases h2.2
  · have hdwlv : d ∈ validate_domain_list e wl :=
      (mem_validate_idOrNone he).mpr ⟨hwl, hid⟩
    rcases List.mem_append.mp h2.1 with hx | hx
    · have hfx := (List.mem_filter.mp hx).2
      simp at hfx
      exact hfx hdwlv
    · exact hnl (List.mem_filter.mp hx).1

theorem wrr_nil (psl : Domain → Domain) : ∀ wl : List Domain,
    whitelist_root_removal psl wl [] = []
  | [] => rfl
  | w :: t => by
    unfold whitelist_root_removal
    rw [List.foldl_cons, if_neg (List.not_mem_nil (psl w))]
    exact wrr_nil psl t

theorem preprune_nil (e : Domain → Option Domain) (psl : Domain → Domain)
    (strip : Bool) (wl : List Domain) :
    dnsgate_preprune e psl strip [] [] wl = [] := by
  cases strip
  · rfl
  · simp [dnsgate_preprune, reconcile_stripped, readmit_subdomains,
      strip_to_psl, validate_domain_list, wrr_nil]

theorem dnsgate_out_nil (e : Domain → Option Domain) (psl : Domain → Domain)
    (b : Bool) (m : Mode) (wl : List Domain) :
    dnsgate_out e psl b m [] [] wl = [] := by
  rw [dnsgate_out, preprune_nil]
  rfl

theorem idOrNone_encodeId : IdOrNone encodeId := fun _ => Or.inr rfl

theorem idOrNone_encodeDrop (bad : Domain) : IdOrNone (encodeDrop bad) := by
  intro d
  unfold encodeDrop
  by_cases h : d = bad
  · rw [if_pos h]
    exact Or.inl rfl
  · rw [if_neg h]
    exact Or.inr rfl

/-! ### Concrete inputs for witnesses and counterexamples -/

/-- The domain example.com. -/
def ecom : Domain := ["example", "com"]

/-- The domain a.example.com. -/
def aecom : Domain := ["a", "example", "com"]

/-- The domain a.b.example.com. -/
def abecom : Domain := ["a", "b", "example", "com"]

/-- The domain safe.example.com. -/
def safecom : Domain := ["safe", "example", "com"]

/-- The domain b.com. -/
def bcom : Domain := ["b", "com"]

/-! ### Claims -/

/-- C1 counterexample: pruning `{example.com, a.b.example.com}` leaves the
set unchanged.  `a.b.example.com` is retained although its ancestor
`example.com` (obtained by dropping the two leading labels) is present,
because only the immediate parent `b.example.com` is tested and it is absent;
the claim's asserted result `{example.com}` is wrong. -/
theorem c1_counterexample :
    prune_redundant_rules [ecom, abecom] = [ecom, abecom] ∧
    abecom ∈ prune_redundant_rules [ecom, abecom] ∧
    abecom.drop 2 = ecom ∧
    ecom ∈ [ecom, abecom] ∧
    prune_redundant_rules [ecom, abecom] ≠ [ecom] := by decide

/-- C1 (amended): the Redundant-Rule Pruning Stage removes a domain based only
on its immediate parent, not on the full ancestor chain: a removed domain
always has its immediate parent in the input set; a domain whose immediate
parent survives pruning is removed; and a domain whose immediate parent is
absent from the input set is retained, even when a deeper ancestor is
present. -/
theorem c1_immediate_parent_pruning (S : List Domain) (d : Domain)
    (hd : d ∈ S) :
    (d ∉ prune_redundant_rules S → 2 ≤ d.length ∧ parent_domain d ∈ S) ∧
    (2 ≤ d.length → parent_domain d ∈ prune_redundant_rules S →
      d ∉ prune_redundant_rules S) ∧
    (parent_domain d ∉ S → d ∈ prune_redundant_rules S) :=
  ⟨fun hnot => prune_removed hd hnot,
   fun hlen hpar hmem => prune_post hmem hlen hpar,
   fun hpar => prune_keep hd (fun hc => hpar hc.2)⟩

theorem c1_witness :
    2 ≤ aecom.length ∧
    parent_domain aecom ∈ prune_redundant_rules [ecom, aecom] ∧
    aecom ∉ prune_redundant_rules [ecom, aecom] :=
  ⟨by decide, by decide,
   (c1_immediate_parent_pruning [ecom, aecom] aecom (by decide)).2.1
     (by decide) (by decide)⟩

/-- C2 counterexample: two runs whose inputs differ only in the iteration
order of the original-domain set.  At the re-admission pass level, with the
pre-pass working blacklist empty, processing `example.com` first blocks the
later `a.b.example.com` (its root is now live) while the opposite order admits
both; the same divergence propagates to the full engine's final output. -/
theorem c2_counterexample :
    List.Perm [ecom, abecom] [abecom, ecom] ∧
    readmit_subdomains pslTake2 [safecom] [] [ecom, abecom] = [ecom] ∧
    readmit_subdomains pslTake2 [safecom] [] [abecom, ecom] = [abecom, ecom] ∧
    dnsgate encodeId pslTake2 true Mode.dnsmasq [ecom, abecom] [] [safecom] =
      Except.ok ([safecom], [ecom]) ∧
    dnsgate encodeId pslTake2 true Mode.dnsmasq [abecom, ecom] [] [safecom] =
      Except.ok ([safecom], [ecom, abecom]) := by
  refine ⟨List.Perm.swap abecom ecom [], by decide, by decide, by decide, by decide⟩

/-- C2 (amended): the re-admission decision for each original domain is
evaluated against the live working blacklist, including re-admissions made
earlier in the same pass, so the resulting working blacklist can depend on the
iteration order of the original-domain set.  The order-independent guarantees
that do hold are: the pass never removes entries, and every entry of the
result either was in the working blacklist before the pass began or is an
original (pre-stripping) domain that is not whitelisted. -/
theorem c2_readmit_live (psl : Domain → Domain) (wl working origs : List Domain)
    (x : Domain) :
    (x ∈ working → x ∈ readmit_subdomains psl wl working origs) ∧
    (x ∈ readmit_subdomains psl wl working origs →
      x ∈ working ∨ (x ∈ origs ∧ x ∉ wl)) :=
  ⟨fun hx => readmitFold_mono psl wl origs working x hx,
   fun hx => readmitFold_mem psl wl origs working x hx⟩

theorem c2_witness :
    ecom ∈ readmit_subdomains pslTake2 [safecom] [ecom] [abecom] ∧
    (abecom ∈ ([] : List Domain) ∨ (abecom ∈ [abecom, ecom] ∧ abecom ∉ [safecom])) :=
  ⟨(c2_readmit_live pslTake2 [safecom] [ecom] [abecom] ecom).1 (by decide),
   (c2_readmit_live pslTake2 [safecom] [] [abecom, ecom] abecom).2 (by decide)⟩

/-- C3 counterexample: a run in which the overlap warning fires for
`a.example.com`, which is in the whitelist but not in the (empty) local
blacklist: the warning condition is not membership in both the local blacklist
and the whitelist, but membership in the whitelist with the registrable root
in the final output. -/
theorem c3_counterexample :
    dnsgate encodeId pslTake2 false Mode.dnsmasq [ecom] [] [aecom] =
      Except.ok ([aecom], [ecom]) ∧
    ¬ (aecom ∈ ([] : List Domain) ∧ aecom ∈ [aecom]) := by decide

/-- C3 (amended): in every successful run, the overlap warning is emitted for
exactly those domains that are in the validated whitelist and whose
registrable root is present in the final output list.  The warning is
non-fatal: the run still returns its output unchanged. -/
theorem c3_warning_characterization (e : Domain → Option Domain)
    (psl : Domain → Domain) (b : Bool) (m : Mode)
    (remote localBl wl : List Domain) (p : List Domain × List Domain)
    (d : Domain) (h : dnsgate e psl b m remote localBl wl = Except.ok p) :
    d ∈ p.1 ↔ d ∈ validate_domain_list e wl ∧ psl d ∈ p.2 := by
  obtain ⟨h2, h1, _⟩ := dnsgate_ok h
  rw [h1, h2, List.mem_filter]
  simp

theorem c3_witness :
    aecom ∈ (([aecom], [ecom]) : List Domain × List Domain).1 ↔
      aecom ∈ validate_domain_list encodeId [aecom] ∧
        pslTake2 aecom ∈ (([aecom], [ecom]) : List Domain × List Domain).2 :=
  c3_warning_characterization encodeId pslTake2 false Mode.dnsmasq [ecom] []
    [aecom] ([aecom], [ecom]) aecom (by decide)

/-- C4 counterexample: `a.example.com` is in the local blacklist, the run
succeeds, yet `a.example.com` is not in the final output: the pruning stage
(src line 544) runs after the local re-union and removes it because its parent
`example.com` is present. -/
theorem c4_counterexample :
    aecom ∈ [aecom] ∧
    dnsgate encodeId pslTake2 false Mode.dnsmasq [ecom] [aecom] [] =
      Except.ok ([], [ecom]) ∧
    aecom ∉ (([], [ecom]) : List Domain × List Domain).2 := by decide

/-- C4 (amended): every local-blacklist domain that re-encodes to itself is
re-unioned into the working blacklist after whitelist subtraction (even if it
or its root is whitelisted), and it is a member of the final ordered output
provided its immediate parent is not also in the pre-pruning working
blacklist.  Without that proviso membership in the output can fail: the
pruning stage runs after the re-union, so a local entry can be removed
despite the local override (local `{a.example.com}` with remote
`{example.com}`). -/
theorem c4_local_blacklist (e : Domain → Option Domain) (psl : Domain → Domain)
    (b : Bool) (m : Mode) (remote localBl wl : List Domain) (d : Domain)
    (p : List Domain × List Domain)
    (he : IdOrNone e) (hed : e d = some d) (hd : d ∈ localBl)
    (hok : dnsgate e psl b m remote localBl wl = Except.ok p)
    (hpar : parent_domain d ∉
      dnsgate_preprune e psl (b && decide (m ≠ Mode.hosts)) remote localBl wl) :
    d ∈ dnsgate_preprune e psl (b && decide (m ≠ Mode.hosts)) remote localBl wl ∧
    d ∈ p.2 := by
  have hpre : d ∈ dnsgate_preprune e psl (b && decide (m ≠ Mode.hosts))
      remote localBl wl := preprune_mem_local he hed hd
  refine ⟨hpre, ?_⟩
  obtain ⟨h2, _, _⟩ := dnsgate_ok hok
  rw [h2, dnsgate_out]
  exact group_by_tld_mem.mpr (prune_keep hpre (fun hc => hpar hc.2))

theorem c4_witness :
    aecom ∈ dnsgate_preprune encodeId pslTake2
      (false && decide (Mode.dnsmasq ≠ Mode.hosts)) [] [aecom] [] ∧
    aecom ∈ (([], [aecom]) : List Domain × List Domain).2 :=
  c4_local_blacklist encodeId pslTake2 false Mode.dnsmasq [] [aecom] [] aecom
    ([], [aecom]) idOrNone_encodeId rfl (by decide) (by decide) (by decide)

/-- C5 counterexample: with root-stripping disabled, `example.com` is in the
whitelist and still appears in the final output, because it is also in the
local blacklist and the local re-union runs after the whitelist
subtraction. -/
theorem c5_counterexample :
    dnsgate encodeId pslTake2 false Mode.dnsmasq [] [ecom] [ecom] =
      Except.ok ([ecom], [ecom]) ∧
    ecom ∈ (([ecom], [ecom]) : List Domain × List Domain).2 := by decide

/-- C5 (amended): with root-stripping disabled, every whitelisted domain that
is not in the local blacklist is absent from the final ordered output.  The
restriction is necessary: a domain in both the whitelist and the local
blacklist is re-added into the pre-pruning working blacklist by the local
override re-merge and can appear in the output (whitelist and local blacklist
both `{example.com}`, remote empty). -/
theorem c5_whitelist_subtraction (e : Domain → Option Domain)
    (psl : Domain → Domain) (m : Mode) (remote localBl wl : List Domain)
    (d : Domain) (p : List Domain × List Domain)
    (he : IdOrNone e) (hwl : d ∈ wl) (hnl : d ∉ localBl)
    (hok : dnsgate e psl false m remote localBl wl = Except.ok p) :
    d ∉ p.2 := by
  obtain ⟨h2, _, _⟩ := dnsgate_ok hok
  rw [h2, dnsgate_out]
  intro hmem
  exact preprune_not_mem_wl he hwl hnl (prune_subset (group_by_tld_mem.mp hmem))

theorem c5_witness :
    aecom ∉ (([aecom], [ecom]) : List Domain × List Domain).2 :=
  c5_whitelist_subtraction encodeId pslTake2 Mode.dnsmasq [ecom] [] [aecom]
    aecom ([aecom], [ecom]) idOrNone_encodeId (by decide) (by decide) (by decide)

/-- C6: requesting root-stripping together with the hosts output mode is a
fatal configuration conflict: the engine returns the configuration-conflict
error for every input, before any of the set-transformation stages
(stripping, reconciliation, re-union, pruning, ordering) contributes to the
result, and no output value is produced. -/
theorem c6_config_conflict (e : Domain → Option Domain) (psl : Domain → Domain)
    (remote localBl wl : List Domain) :
    dnsgate e psl true Mode.hosts remote localBl wl =
      Except.error DnsErr.configConflict := by
  unfold dnsgate
  rw [if_pos ⟨rfl, rfl⟩]

/-- C7: a run whose final reconciled list is empty fails with the
empty-result error and produces no output: no successful run returns an empty
output sequence, and with all remote and local inputs empty (and a
non-conflicting configuration) the engine returns the empty-result error. -/
theorem c7_empty_result_fatal (e : Domain → Option Domain)
    (psl : Domain → Domain) (b : Bool) (m : Mode)
    (remote localBl wl : List Domain) (p : List Domain × List Domain) :
    (dnsgate e psl b m remote localBl wl = Except.ok p → p.2 ≠ []) ∧
    (¬ (b = true ∧ m = Mode.hosts) →
      dnsgate e psl b m [] [] wl = Except.error DnsErr.emptyResult) := by
  constructor
  · intro h
    exact (dnsgate_ok h).2.2
  · intro hbm
    unfold dnsgate
    rw [if_neg hbm, if_pos (dnsgate_out_nil e psl b m wl)]

theorem c7_witness :
    (([] : List Domain), [aecom]).2 ≠ ([] : List Domain) ∧
    dnsgate encodeId pslTake2 false Mode.dnsmasq [] [] [] =
      Except.error DnsErr.emptyResult :=
  ⟨(c7_empty_result_fatal encodeId pslTake2 false Mode.dnsmasq [] [aecom] []
      ([], [aecom])).1 (by decide),
   (c7_empty_result_fatal encodeId pslTake2 false Mode.dnsmasq [] [] []
      ([], [])).2 (by decide)⟩

/-- C8: the Redundant-Rule Pruning Stage is idempotent: pruning the result of
pruning any input yields the result of pruning it once. -/
theorem c8_prune_idempotent (S : List Domain) :
    prune_redundant_rules (prune_redundant_rules S) = prune_redundant_rules S :=
  pruneFold_id _ _ (fun _ hd hc => prune_post hd hc.1 hc.2)

/-- C9: the Canonical Ordering Stage returns the final set sorted
lexicographically by reversed label sequence (TLD first), with each entry
restored to normal form: the reversed entries of the result are sorted, the
result is a permutation of the input set, the result depends only on the
set's contents (any two enumerations that are permutations of each other
produce the identical sequence, so two runs on the same set agree), and all
domains sharing a top-level label appear contiguously. -/
theorem c9_group_by_tld (S : List Domain) :
    List.Sorted RevLe ((group_by_tld S).map List.reverse) ∧
    List.Perm (group_by_tld S) S ∧
    (∀ T, List.Perm S T → group_by_tld S = group_by_tld T) ∧
    (∀ i j k : Fin (group_by_tld S).length, i < j → j < k →
      tldOf ((group_by_tld S).get i) = tldOf ((group_by_tld S).get k) →
      tldOf ((group_by_tld S).get j) = tldOf ((group_by_tld S).get i)) := by
  refine ⟨group_by_tld_sorted S, group_by_tld_perm S,
    fun T h => group_by_tld_eq_of_perm h, ?_⟩
  intro i j k hij hjk hik
  have hs := group_by_tld_sorted S
  have hlen : ((group_by_tld S).map List.reverse).length = (group_by_tld S).length :=
    List.length_map _ _
  have hgm : ∀ i : Fin (group_by_tld S).length,
      ((group_by_tld S).map List.reverse).get (i.cast hlen.symm) =
        ((group_by_tld S).get i).reverse := by
    intro i
    rw [List.get_map]
    rfl
  have hij' : (Fin.cast hlen.symm i) < (Fin.cast hlen.symm j) := hij
  have hjk' : (Fin.cast hlen.symm j) < (Fin.cast hlen.symm k) := hjk
  have h1 := hs.rel_get_of_lt hij'
  have h2 := hs.rel_get_of_lt hjk'
  rw [hgm i, hgm j] at h1
  rw [hgm j, hgm k] at h2
  have hAB : labelLt (tldOf ((group_by_tld S).get j))
      (tldOf ((group_by_tld S).get i)) = false := revLe_headD h1
  have hBC : labelLt (tldOf ((group_by_tld S).get k))
      (tldOf ((group_by_tld S).get j)) = false := revLe_headD h2
  rw [← hik] at hBC
  exact (labelLt_conn hBC hAB).symm

theorem c9_witness :
    List.Sorted RevLe ((group_by_tld [ecom, bcom, aecom]).map List.reverse) ∧
    List.Perm (group_by_tld [ecom, bcom, aecom]) [ecom, bcom, aecom] ∧
    group_by_tld [ecom, bcom, aecom] = group_by_tld [aecom, bcom, ecom] ∧
    tldOf ((group_by_tld [ecom, bcom, aecom]).get ⟨1, by decide⟩) =
      tldOf ((group_by_tld [ecom, bcom, aecom]).get ⟨0, by decide⟩) :=
  ⟨(c9_group_by_tld [ecom, bcom, aecom]).1,
   (c9_group_by_tld [ecom, bcom, aecom]).2.1,
   (c9_group_by_tld [ecom, bcom, aecom]).2.2.1 [aecom, bcom, ecom] (by decide),
   (c9_group_by_tld [ecom, bcom, aecom]).2.2.2 ⟨0, by decide⟩ ⟨1, by decide⟩
     ⟨2, by decide⟩ (by decide) (by decide) (by decide)⟩

/-- C10: `validate_domain_list` is total and never propagates an encoding
failure to its caller: its result contains exactly the successful
re-encodings of its input, so for an encoder that acts as the identity on the
tokens it accepts, the validated set is exactly the subset of encodable
entries; and since the engine re-validates the combined set late in the
pipeline (src line 540), a token that fails to encode is absent from the
output of every successful run — it is silently dropped, not surfaced as an
error (the engine has no malformed-token error condition at all). -/
theorem c10_validation_drops_silently (e : Domain → Option Domain)
    (psl : Domain → Domain) (b : Bool) (m : Mode)
    (S remote localBl wl : List Domain) (x d : Domain)
    (p : List Domain × List Domain)
    (he : IdOrNone e) (hd : e d = none)
    (hok : dnsgate e psl b m remote localBl wl = Except.ok p) :
    (x ∈ validate_domain_list e S ↔ ∃ y ∈ S, e y = some x) ∧
    (x ∈ validate_domain_list e S ↔ x ∈ S ∧ e x = some x) ∧
    d ∉ p.2 := by
  refine ⟨mem_validate, mem_validate_idOrNone he, ?_⟩
  obtain ⟨h2, _, _⟩ := dnsgate_ok hok
  rw [h2, dnsgate_out]
  intro hmem
  have hpre := prune_subset (group_by_tld_mem.mp hmem)
  simp only [dnsgate_preprune] at hpre
  have hc := (mem_validate_idOrNone he).mp hpre
  rw [hd] at hc
  cases hc.2

theorem c10_witness :
    (ecom ∈ validate_domain_list (encodeDrop bcom) [ecom, bcom] ↔
      ∃ y ∈ [ecom, bcom], encodeDrop bcom y = some ecom) ∧
    (ecom ∈ validate_domain_list (encodeDrop bcom) [ecom, bcom] ↔
      ecom ∈ [ecom, bcom] ∧ encodeDrop bcom ecom = some ecom) ∧
    bcom ∉ (([], [ecom]) : List Domain × List Domain).2 :=
  c10_validation_drops_silently (encodeDrop bcom) pslTake2 false Mode.dnsmasq
    [ecom, bcom] [ecom, bcom] [] [] ecom bcom ([], [ecom])
    (idOrNone_encodeDrop bcom) (by decide) (by decide)

